import Mathlib

/-
Verification of the horizon-estimation core of the rover web client
(data/cv-processor.js): segment classification, seed-anchored clustering,
cluster scoring and selection, weighted-median line fitting, screen-space
inversion, and bounded temporal median smoothing.

The JavaScript numbers are modelled as real numbers; the order-based
utilities (weighted median, smoothing, clustering) are stated over an
arbitrary linear ordered field so that they can also be evaluated on
rational inputs.
-/

namespace CV

/-- Configuration relevant to the core (CVProcessor.DEFAULTS, merged into
`this.config`). -/
structure Config where
  horizonMaxAngle : ℝ := 45
  wallAngleTolerance : ℝ := 15
  clusterAngleTolerance : ℝ := 8
  smoothFrames : ℕ := 5
  minClusterSegments : ℕ := 1

/-- The default configuration (CVProcessor.DEFAULTS). -/
def defaultConfig : Config := {}

/-- A value/weight pair `{ v, w }` as consumed by `_weightedMedian`. -/
structure WItem (α : Type) where
  v : α
  w : α
deriving DecidableEq

/-- The accumulation loop of `_weightedMedian`: add each weight to the running
total and return the first value whose cumulative weight reaches `half`;
`none` when the loop falls through. -/
def wmScan {α : Type} [LinearOrderedField α] (half : α) : α → List (WItem α) → Option α
  | _, [] => none
  | cum, x :: xs => if half ≤ cum + x.w then some x.v else wmScan half (cum + x.w) xs

/-- `CVProcessor._weightedMedian`: 0 for an empty list, the sole value for a
singleton; otherwise sort by value ascending, accumulate weights and return
the first value whose cumulative weight reaches half the total, falling back
to the last sorted value. -/
def weightedMedian {α : Type} [LinearOrderedField α] (items : List (WItem α)) : α :=
  match items with
  | [] => 0
  | [x] => x.v
  | _ =>
    let sorted := items.insertionSort (fun a b => a.v ≤ b.v)
    let totalWeight := (sorted.map WItem.w).sum
    let half := totalWeight / 2
    match wmScan half 0 sorted with
    | some v => v
    | none => ((sorted.getLast?).map WItem.v).getD 0

/-- `CVProcessor._smoothValue`: append the sample, evict the oldest sample once
the capacity is exceeded, and return the element at index `⌊n/2⌋` of the
sorted buffer (non-interpolated median).  Returns (median, new buffer). -/
def smoothValue {α : Type} [LinearOrderedField α] (maxSize : ℕ) (buffer : List α)
    (value : α) : α × List α :=
  let pushed := buffer ++ [value]
  let kept := if maxSize < pushed.length then pushed.tail else pushed
  let sorted := kept.insertionSort (fun a b => a ≤ b)
  (sorted.getD (sorted.length / 2) 0, kept)

/-- Restatement of the specification's weighted-median rule, for comparison
with the implementation: scan the sorted items, accumulating weights, and
return the value of the first item whose cumulative weight reaches `half`. -/
def specFirstAtHalf {α : Type} [LinearOrderedField α] (half : α) : α → List (WItem α) → Option α
  | _, [] => none
  | cum, x :: xs => if half ≤ cum + x.w then some x.v else specFirstAtHalf half (cum + x.w) xs

/-- Restatement of the specification's weighted median: sort by value
ascending, accumulate weights, return the value of the first item whose
cumulative weight reaches half of the total weight. -/
def specWeightedMedian {α : Type} [LinearOrderedField α] (items : List (WItem α)) : α :=
  let sorted := items.insertionSort (fun a b => a.v ≤ b.v)
  let half := (sorted.map WItem.w).sum / 2
  (specFirstAtHalf half 0 sorted).getD 0

/-- The seed loop of `_clusterByProperty`: the first unassigned item seeds a
cluster and absorbs exactly the later unassigned items whose property lies
strictly within the tolerance of the seed's; the `used` index set of the
source corresponds to partitioning the remaining items by that test. -/
def clusterSeeded {α β : Type} [LinearOrderedField α] (f : β → α) (tol : α) :
    List β → List (List β)
  | [] => []
  | seed :: rest =>
    (seed :: rest.filter (fun x => decide (|f seed - f x| < tol))) ::
      clusterSeeded f tol (rest.filter (fun x => !decide (|f seed - f x| < tol)))
termination_by items => items.length
decreasing_by
  simp only [List.length_cons]
  exact Nat.lt_succ_of_le (List.length_filter_le _ _)

/-- `CVProcessor._clusterByProperty`: seed-anchored clustering followed by
discarding clusters below the minimum size. -/
def clusterByProperty {α β : Type} [LinearOrderedField α] (f : β → α) (tol : α)
    (minSize : ℕ) (items : List β) : List (List β) :=
  (clusterSeeded f tol items).filter (fun c => decide (minSize ≤ c.length))

/-- A horizon-candidate segment as consumed by `_detectHorizon`: the derived
fields `angle` (degrees, normalized), signed offset `d`, and `length`. -/
structure Segment where
  angle : ℝ
  d : ℝ
  length : ℝ

/-- `totalLength` of a cluster (`_selectBestCluster`). -/
def totalLengthOf (cluster : List Segment) : ℝ :=
  (cluster.map Segment.length).sum

/-- The length-weighted angle sum `Σ angle·length` of a cluster. -/
def weightedAngleSum (cluster : List Segment) : ℝ :=
  (cluster.map (fun l => l.angle * l.length)).sum

/-- `avgAngle` of a cluster (`_selectBestCluster`): length-weighted mean. -/
noncomputable def avgAngleOf (cluster : List Segment) : ℝ :=
  weightedAngleSum cluster / totalLengthOf cluster

/-- `angleBonus` of a cluster (`_selectBestCluster`). -/
noncomputable def angleBonusOf (cluster : List Segment) : ℝ :=
  1 - |avgAngleOf cluster| / 45

/-- `score` of a cluster (`_selectBestCluster`):
`totalLength · √segmentCount · (0.7 + 0.3·angleBonus)`. -/
noncomputable def clusterScore (cluster : List Segment) : ℝ :=
  totalLengthOf cluster * Real.sqrt cluster.length * (0.7 + 0.3 * angleBonusOf cluster)

/-- The record built for the best cluster in `_selectBestCluster`. -/
structure BestCluster where
  cluster : List Segment
  totalLength : ℝ
  segmentCount : ℕ
  avgAngle : ℝ
  score : ℝ

/-- The candidate record `{ cluster, totalLength, segmentCount, avgAngle, score }`. -/
noncomputable def mkBest (cluster : List Segment) : BestCluster :=
  { cluster := cluster
    totalLength := totalLengthOf cluster
    segmentCount := cluster.length
    avgAngle := avgAngleOf cluster
    score := clusterScore cluster }

/-- The selection loop of `_selectBestCluster`; `bestScore` starts at -Infinity
in the source, so the first cluster always replaces the empty accumulator. -/
noncomputable def selectLoop : Option BestCluster → List (List Segment) → Option BestCluster
  | best, [] => best
  | best, c :: cs =>
    selectLoop
      (match best with
        | none => some (mkBest c)
        | some b => if clusterScore c > b.score then some (mkBest c) else some b)
      cs

/-- `CVProcessor._selectBestCluster`. -/
noncomputable def selectBestCluster (clusters : List (List Segment)) : Option BestCluster :=
  selectLoop none clusters

/-- The horizon estimate returned by `_buildHorizonLine`. -/
structure Estimate where
  y : ℝ
  angle : ℝ
  d : ℝ
  segments : List Segment
  confidence : ℝ
  segmentCount : ℕ
  totalLength : ℝ

/-- The temporal-smoothing buffers `this._buffers` (channels `horizonY` and
`horizonAngle`). -/
structure Buffers where
  horizonY : List ℝ
  horizonAngle : List ℝ

/-- The guarded line inversion of `_buildHorizonLine`: at the horizontal screen
center `x = width/2`, `y = (x·sin θ − d)/cos θ` when `|cos θ| > 0.001`, else
the fallback `height/2`. -/
noncomputable def invertAtCenter (width height medianAngle medianD : ℝ) : ℝ :=
  let rad := medianAngle * Real.pi / 180
  let c := Real.cos rad
  let s := Real.sin rad
  if |c| > 0.001 then ((width / 2) * s - medianD) / c else height / 2

/-- `CVProcessor._buildHorizonLine`: weighted-median angle/offset, inversion of
the line equation at the horizontal screen center with a near-zero-cosine
guard, temporal smoothing of both channels, and confidence normalization. -/
noncomputable def buildHorizonLine (cfg : Config) (width height : ℝ)
    (best : BestCluster) (st : Buffers) : Estimate × Buffers :=
  let medianAngle := weightedMedian (best.cluster.map (fun l => ⟨l.angle, l.length⟩))
  let medianD := weightedMedian (best.cluster.map (fun l => ⟨l.d, l.length⟩))
  let centerY := invertAtCenter width height medianAngle medianD
  let ySm := smoothValue cfg.smoothFrames st.horizonY centerY
  let aSm := smoothValue cfg.smoothFrames st.horizonAngle medianAngle
  let diagonal := Real.sqrt (width * width + height * height)
  let expectedScore := diagonal * 0.8
  let confidence := min (best.score / expectedScore) 1
  ({ y := ySm.1
     angle := aSm.1
     d := medianD
     segments := best.cluster
     confidence := confidence
     segmentCount := best.segmentCount
     totalLength := best.totalLength },
   { horizonY := ySm.2, horizonAngle := aSm.2 })

/-- The clustering tolerances of `_computeAdaptiveParams`. -/
structure Params where
  clusterToleranceD : ℝ
  clusterToleranceAngle : ℝ

/-- The clustering part of `CVProcessor._computeAdaptiveParams`. -/
noncomputable def computeAdaptiveParams (cfg : Config) (w h : ℝ) : Params :=
  { clusterToleranceD := max 10 (Real.sqrt (w * w + h * h) * 0.03)
    clusterToleranceAngle := cfg.clusterAngleTolerance }

/-- Step 1 of `_detectHorizon`: clusters of parallel segments, by `angle`. -/
noncomputable def angleClustersOf (cfg : Config) (params : Params) (candidates : List Segment) :
    List (List Segment) :=
  clusterByProperty Segment.angle params.clusterToleranceAngle cfg.minClusterSegments candidates

/-- Step 2 of `_detectHorizon`: for each angle cluster, collinear subclusters by
`d`, concatenated in order. -/
noncomputable def collinearClustersOf (cfg : Config) (params : Params) (candidates : List Segment) :
    List (List Segment) :=
  ((angleClustersOf cfg params candidates).map
    (fun ac => clusterByProperty Segment.d params.clusterToleranceD cfg.minClusterSegments ac)).flatten

/-- `CVProcessor._detectHorizon`: null for empty candidates or when either
clustering stage yields nothing; otherwise the best cluster is fitted (which
is the only path that touches the smoothing buffers). -/
noncomputable def detectHorizon (cfg : Config) (params : Params) (width height : ℝ)
    (candidates : List Segment) (st : Buffers) : Option Estimate × Buffers :=
  if candidates.length = 0 then (none, st)
  else
    if (angleClustersOf cfg params candidates).length = 0 then (none, st)
    else
      if (collinearClustersOf cfg params candidates).length = 0 then (none, st)
      else
        match selectBestCluster (collinearClustersOf cfg params candidates) with
        | none => (none, st)
        | some best =>
          let r := buildHorizonLine cfg width height best st
          (some r.1, r.2)

/-- A raw Hough segment (int32 endpoints in the source, reals here). -/
structure RawLine where
  x1 : ℝ
  y1 : ℝ
  x2 : ℝ
  y2 : ℝ

/-- `Math.atan2(y, x)` in degrees: the complex argument of `x + y·i`, scaled by
`180/π`. -/
noncomputable def atan2deg (y x : ℝ) : ℝ :=
  Complex.arg ⟨x, y⟩ * 180 / Real.pi

/-- The angle normalization of `_classifyLines`: subtract 180 above 90, then
add 180 below -90. -/
noncomputable def normalizeAngle (a : ℝ) : ℝ :=
  let b := if a > 90 then a - 180 else a
  if b < -90 then b + 180 else b

/-- The per-line derived fields computed in `_classifyLines`. -/
structure DerivedLine where
  rawAngle : ℝ
  angle : ℝ
  length : ℝ
  cx : ℝ
  cy : ℝ
  d : ℝ

/-- Per-line derivation in `_classifyLines`: raw angle by `atan2`, Euclidean
length, normalized angle, midpoint, and signed offset
`d = cx·sin θ − cy·cos θ`. -/
noncomputable def derive (r : RawLine) : DerivedLine :=
  let rawAngle := atan2deg (r.y2 - r.y1) (r.x2 - r.x1)
  let length := Real.sqrt ((r.x2 - r.x1) ^ 2 + (r.y2 - r.y1) ^ 2)
  let angle := normalizeAngle rawAngle
  let cx := (r.x1 + r.x2) / 2
  let cy := (r.y1 + r.y2) / 2
  let rad := angle * Real.pi / 180
  { rawAngle := rawAngle
    angle := angle
    length := length
    cx := cx
    cy := cy
    d := cx * Real.sin rad - cy * Real.cos rad }

/-- The horizon-candidate branch of `_classifyLines`:
`|normAngle| < maxHorizonAngle`. -/
noncomputable def horizonCandidatesOf (cfg : Config) (lines : List RawLine) :
    List DerivedLine :=
  (lines.map derive).filter (fun dl => decide (|dl.angle| < cfg.horizonMaxAngle))

/-- The wall-candidate branch of `_classifyLines`:
`||rawAngle| − 90| < wallAngleTolerance` (raw, pre-normalization angle). -/
noncomputable def wallCandidatesOf (cfg : Config) (lines : List RawLine) :
    List DerivedLine :=
  (lines.map derive).filter (fun dl => decide (abs (|dl.rawAngle| - 90) < cfg.wallAngleTolerance))

/-- Projection of a derived line onto the fields `_detectHorizon` consumes. -/
def DerivedLine.toSegment (dl : DerivedLine) : Segment :=
  { angle := dl.angle, d := dl.d, length := dl.length }

/-- `CVProcessor._classifyLines`: classification, horizon detection over the
candidates, and the top-10 longest wall candidates. -/
noncomputable def classifyLines (cfg : Config) (params : Params) (width height : ℝ)
    (lines : List RawLine) (st : Buffers) :
    (Option Estimate × List DerivedLine) × Buffers :=
  let cands := (horizonCandidatesOf cfg lines).map DerivedLine.toSegment
  let r := detectHorizon cfg params width height cands st
  let walls := ((wallCandidatesOf cfg lines).insertionSort
    (fun a b => b.length ≤ a.length)).take 10
  ((r.1, walls), r.2)

/-! ### Clustering lemmas -/

/-- Every cluster produced by the seed loop is its seed followed by items
strictly within tolerance of the seed, and all members come from the input. -/
theorem clusterSeeded_mem_cases {α β : Type} [LinearOrderedField α] (f : β → α) (tol : α) :
    ∀ (n : ℕ) (items : List β), items.length ≤ n → ∀ c ∈ clusterSeeded f tol items,
      (∃ s t, c = s :: t ∧ ∀ x ∈ t, |f s - f x| < tol) ∧ (∀ x ∈ c, x ∈ items) := by
  intro n
  induction n with
  | zero =>
    intro items hlen c hc
    rw [List.length_eq_zero.mp (Nat.le_zero.mp hlen)] at hc
    simp [clusterSeeded] at hc
  | succ n ih =>
    intro items hlen c hc
    match items with
    | [] => simp [clusterSeeded] at hc
    | seed :: rest =>
      rw [clusterSeeded] at hc
      rcases List.mem_cons.mp hc with h | h
      · constructor
        · refine ⟨seed, _, h, ?_⟩
          intro x hx
          simpa using (List.mem_filter.mp hx).2
        · intro x hx
          subst h
          rcases List.mem_cons.mp hx with h | h
          · exact h ▸ List.mem_cons_self _ _
          · exact List.mem_cons_of_mem _ (List.mem_of_mem_filter h)
      · have hrec := ih (rest.filter (fun x => !decide (|f seed - f x| < tol)))
          (le_trans (List.length_filter_le _ _) (by simpa using hlen)) c h
        exact ⟨hrec.1, fun x hx => List.mem_cons_of_mem _ (List.mem_of_mem_filter (hrec.2 x hx))⟩

/-- Members of any cluster of `_clusterByProperty` come from the input list. -/
theorem clusterByProperty_subset {α β : Type} [LinearOrderedField α] (f : β → α)
    (tol : α) (minSize : ℕ) (items : List β) (c : List β)
    (hc : c ∈ clusterByProperty f tol minSize items) : ∀ x ∈ c, x ∈ items :=
  (clusterSeeded_mem_cases f tol items.length items le_rfl c
    (List.mem_of_mem_filter hc)).2

/-- C4: the generic clusterer is seed-anchored with a strict tolerance
comparison.  Every produced cluster is a seed followed by exactly the later
unassigned items whose property differs from the seed's by strictly less than
the tolerance; on a two-item list, a property difference strictly below the
tolerance joins the two items into one cluster and a difference equal to (or
above) the tolerance keeps them in separate clusters. -/
theorem clusterByProperty_seed_anchored :
    (∀ (α β : Type) [inst : LinearOrderedField α] (f : β → α) (tol : α) (minSize : ℕ)
      (items : List β) (c : List β), c ∈ clusterByProperty f tol minSize items →
        ∃ s t, c = s :: t ∧ ∀ x ∈ t, |f s - f x| < tol) ∧
    (∀ (α : Type) [inst : LinearOrderedField α] (a b tol : α),
      clusterByProperty (fun x => x) tol 1 [a, b] =
        if |a - b| < tol then [[a, b]] else [[a], [b]]) := by
  constructor
  · intro α β inst f tol minSize items c hc
    exact (clusterSeeded_mem_cases f tol items.length items le_rfl c
      (List.mem_of_mem_filter hc)).1
  · intro α inst a b tol
    by_cases h : |a - b| < tol
    · simp [clusterByProperty, clusterSeeded, h]
    · simp [clusterByProperty, clusterSeeded, h]

/-- Witness for C4 at a concrete boundary input: items 0 and 5 with tolerance
exactly 5 do not join; the seed-anchored shape holds for the produced
cluster. -/
theorem clusterByProperty_seed_anchored_witness :
    ([(0 : ℚ)] ∈ clusterByProperty (fun x => x) 5 1 [0, 5] ∧
      (∃ s t, [(0 : ℚ)] = s :: t ∧ ∀ x ∈ t, |s - x| < 5)) ∧
    clusterByProperty (fun x => x) (5 : ℚ) 1 [0, 5] =
      if |(0 : ℚ) - 5| < 5 then [[0, 5]] else [[0], [5]] := by
  have h2 := clusterByProperty_seed_anchored.2 ℚ 0 5 5
  have hmem : [(0 : ℚ)] ∈ clusterByProperty (fun x => x) 5 1 [0, 5] := by
    rw [h2]
    norm_num
  refine ⟨⟨hmem, ?_⟩, h2⟩
  simpa using clusterByProperty_seed_anchored.1 ℚ ℚ (fun x => x) 5 1 [0, 5] [0] hmem

/-! ### Line inversion (C7) -/

/-- C7: the screen-space inversion divides by `cos θ` only when `|cos θ|`
exceeds the 0.001 threshold, and otherwise falls back to `height/2`. -/
theorem invertAtCenter_guarded (width height θ d : ℝ) :
    (0.001 < |Real.cos (θ * Real.pi / 180)| →
      invertAtCenter width height θ d =
        ((width / 2) * Real.sin (θ * Real.pi / 180) - d) / Real.cos (θ * Real.pi / 180)) ∧
    (|Real.cos (θ * Real.pi / 180)| ≤ 0.001 →
      invertAtCenter width height θ d = height / 2) := by
  constructor
  · intro h
    rw [invertAtCenter, if_pos h]
  · intro h
    rw [invertAtCenter, if_neg (by simpa using not_lt.mpr h)]

/-- Witness for C7 at θ = 0 (cosine 1, above the threshold): the division
branch is taken. -/
theorem invertAtCenter_guarded_witness :
    0.001 < |Real.cos ((0 : ℝ) * Real.pi / 180)| ∧
    invertAtCenter 2 4 0 0 =
      ((2 / 2) * Real.sin ((0 : ℝ) * Real.pi / 180) - 0) / Real.cos ((0 : ℝ) * Real.pi / 180) := by
  have h : (0.001 : ℝ) < |Real.cos ((0 : ℝ) * Real.pi / 180)| := by
    rw [show ((0 : ℝ) * Real.pi / 180) = 0 by ring, Real.cos_zero]
    norm_num
  exact ⟨h, (invertAtCenter_guarded 2 4 0 0).1 h⟩

/-! ### Empty-outcome policy (C2) -/

/-- C2: whenever `_detectHorizon` yields no result — in particular on an empty
candidate list — the outcome is the explicit `none` and the smoothing buffers
are returned exactly unchanged. -/
theorem detectHorizon_none_preserves_buffers (cfg : Config) (params : Params)
    (width height : ℝ) (candidates : List Segment) (st : Buffers) :
    (candidates = [] → (detectHorizon cfg params width height candidates st).1 = none) ∧
    ((detectHorizon cfg params width height candidates st).1 = none →
      (detectHorizon cfg params width height candidates st).2 = st) := by
  constructor
  · intro hc
    subst hc
    simp [detectHorizon]
  · intro hnone
    unfold detectHorizon at hnone ⊢
    split_ifs at hnone ⊢ with h1 h2 h3
    · rfl
    · rfl
    · rfl
    · rcases hsel : selectBestCluster (collinearClustersOf cfg params candidates) with _ | best
      · simp [hsel]
      · rw [hsel] at hnone
        simp at hnone

/-- Witness for C2: a concrete empty invocation returns the empty outcome with
both buffers untouched. -/
theorem detectHorizon_none_preserves_buffers_witness :
    (detectHorizon defaultConfig ⟨10, 8⟩ 4 3 [] ⟨[], []⟩).1 = none ∧
    (detectHorizon defaultConfig ⟨10, 8⟩ 4 3 [] ⟨[], []⟩).2 = ⟨[], []⟩ := by
  have h := detectHorizon_none_preserves_buffers defaultConfig ⟨10, 8⟩ 4 3 [] ⟨[], []⟩
  exact ⟨h.1 rfl, h.2 (h.1 rfl)⟩

/-! ### Weighted median (C1) -/

/-- The implementation's scan and the specification's scan agree. -/
theorem wmScan_eq_specFirstAtHalf {α : Type} [LinearOrderedField α] (half : α) :
    ∀ (xs : List (WItem α)) (cum : α), wmScan half cum xs = specFirstAtHalf half cum xs := by
  intro xs
  induction xs with
  | nil => intro cum; rfl
  | cons x t ih =>
    intro cum
    rw [wmScan, specFirstAtHalf]
    by_cases h : half ≤ cum + x.w
    · rw [if_pos h, if_pos h]
    · rw [if_neg h, if_neg h, ih]

/-- The scan succeeds whenever the target is at most the final cumulative
weight. -/
theorem wmScan_isSome {α : Type} [LinearOrderedField α] (half : α) :
    ∀ (xs : List (WItem α)) (cum : α), xs ≠ [] →
      half ≤ cum + (xs.map WItem.w).sum → (wmScan half cum xs).isSome := by
  intro xs
  induction xs with
  | nil => intro cum hne; exact absurd rfl hne
  | cons x t ih =>
    intro cum hne hsum
    rw [wmScan]
    by_cases h : half ≤ cum + x.w
    · rw [if_pos h]; rfl
    · rw [if_neg h]
      match t with
      | [] =>
        exfalso
        apply h
        simpa using hsum
      | y :: t₂ =>
        apply ih (cum + x.w) (by simp)
        simp only [List.map_cons, List.sum_cons] at hsum ⊢
        linarith

/-- A successful scan returns the value of one of the scanned items. -/
theorem wmScan_mem {α : Type} [LinearOrderedField α] (half : α) :
    ∀ (xs : List (WItem α)) (cum : α) (v : α), wmScan half cum xs = some v →
      ∃ x ∈ xs, v = x.v := by
  intro xs
  induction xs with
  | nil => intro cum v h; simp [wmScan] at h
  | cons x t ih =>
    intro cum v h
    rw [wmScan] at h
    by_cases hc : half ≤ cum + x.w
    · rw [if_pos hc] at h
      exact ⟨x, by simp, (Option.some_inj.mp h).symm⟩
    · rw [if_neg hc] at h
      rcases ih (cum + x.w) v h with ⟨z, hz, hv⟩
      exact ⟨z, List.mem_cons_of_mem _ hz, hv⟩

/-- C1: for every non-empty list of value/weight items with non-negative
weights, `_weightedMedian` returns exactly the lower weighted median described
by the spec (first sorted item whose cumulative weight reaches half of the
total), and on the example cluster (weight, value) = (1,10°), (2,20°), (3,30°)
the weighted median is 20°. -/
theorem weightedMedian_matches_spec :
    (∀ (α : Type) [inst : LinearOrderedField α] (items : List (WItem α)),
      items ≠ [] → (∀ x ∈ items, 0 ≤ x.w) →
        weightedMedian items = specWeightedMedian items) ∧
    weightedMedian [⟨(10 : ℝ), 1⟩, ⟨20, 2⟩, ⟨30, 3⟩] = 20 := by
  constructor
  · intro α inst items hne hw
    match items with
    | [x] =>
      have hx : (0 : α) ≤ x.w := hw x (by simp)
      simp only [weightedMedian, specWeightedMedian, List.insertionSort,
        List.orderedInsert, specFirstAtHalf, List.map_cons, List.map_nil,
        List.sum_cons, List.sum_nil, add_zero, zero_add]
      rw [if_pos (by linarith)]
      rfl
    | x :: y :: rest =>
      have hlen : ((x :: y :: rest).insertionSort (fun a b => a.v ≤ b.v)).length =
          (x :: y :: rest).length := List.length_insertionSort _ _
      have hsne : (x :: y :: rest).insertionSort (fun a b => a.v ≤ b.v) ≠ [] := by
        intro h
        rw [h] at hlen
        simp at hlen
      have hmemw : ∀ z ∈ (x :: y :: rest).insertionSort (fun a b => a.v ≤ b.v),
          (0 : α) ≤ z.w := fun z hz =>
        hw z ((List.perm_insertionSort (fun a b => a.v ≤ b.v) (x :: y :: rest)).mem_iff.mp hz)
      have htot : (0 : α) ≤
          (((x :: y :: rest).insertionSort (fun a b => a.v ≤ b.v)).map WItem.w).sum := by
        apply List.sum_nonneg
        intro a ha
        rcases List.mem_map.mp ha with ⟨z, hz, rfl⟩
        exact hmemw z hz
      have hsome := wmScan_isSome
        ((((x :: y :: rest).insertionSort (fun a b => a.v ≤ b.v)).map WItem.w).sum / 2)
        ((x :: y :: rest).insertionSort (fun a b => a.v ≤ b.v)) 0 hsne
        (by rw [zero_add]; linarith)
      rcases Option.isSome_iff_exists.mp hsome with ⟨v, hv⟩
      have h1 : weightedMedian (x :: y :: rest) = v := by
        simp only [weightedMedian]
        rw [hv]
      have h2 : specWeightedMedian (x :: y :: rest) = v := by
        simp only [specWeightedMedian]
        rw [← wmScan_eq_specFirstAtHalf, hv]
        rfl
      rw [h1, h2]
  · norm_num [weightedMedian, wmScan, List.insertionSort, List.orderedInsert]

/-- Witness for C1: the general spec-agreement theorem applied to the concrete
example list. -/
theorem weightedMedian_matches_spec_witness :
    ([⟨(10 : ℝ), 1⟩, ⟨20, 2⟩, ⟨30, 3⟩] : List (WItem ℝ)) ≠ [] ∧
    (∀ x ∈ ([⟨(10 : ℝ), 1⟩, ⟨20, 2⟩, ⟨30, 3⟩] : List (WItem ℝ)), 0 ≤ x.w) ∧
    weightedMedian [⟨(10 : ℝ), 1⟩, ⟨20, 2⟩, ⟨30, 3⟩] =
      specWeightedMedian [⟨(10 : ℝ), 1⟩, ⟨20, 2⟩, ⟨30, 3⟩] := by
  have hw : ∀ x ∈ ([⟨(10 : ℝ), 1⟩, ⟨20, 2⟩, ⟨30, 3⟩] : List (WItem ℝ)), 0 ≤ x.w := by
    intro x hx
    simp only [List.mem_cons, List.not_mem_nil, or_false] at hx
    rcases hx with rfl | rfl | rfl <;> norm_num
  exact ⟨by simp, hw, weightedMedian_matches_spec.1 ℝ _ (by simp) hw⟩

/-! ### Temporal smoothing (C9) -/

/-- C9: the smoothing buffer is a bounded FIFO — length never exceeds the
capacity, the oldest sample is evicted on overflow — each append returns the
element at index `⌊n/2⌋` of the sorted buffer, and the example feed
[100, 102, 101, 150, 101] into a 5-slot smoother returns 101. -/
theorem smoothValue_bounded_fifo :
    (∀ (α : Type) [inst : LinearOrderedField α] (ms : ℕ) (buf : List α) (v : α),
      buf.length ≤ ms →
        (smoothValue ms buf v).2.length ≤ ms ∧
        (ms < buf.length + 1 → (smoothValue ms buf v).2 = (buf ++ [v]).tail) ∧
        (smoothValue ms buf v).1 =
          ((smoothValue ms buf v).2.insertionSort (fun a b => a ≤ b)).getD
            ((smoothValue ms buf v).2.length / 2) 0) ∧
    (smoothValue 5 (smoothValue 5 (smoothValue 5 (smoothValue 5
      (smoothValue 5 ([] : List ℝ) 100).2 102).2 101).2 150).2 101).1 = 101 := by
  constructor
  · intro α inst ms buf v hlen
    by_cases h : ms < (buf ++ [v]).length
    · refine ⟨?_, ?_, ?_⟩
      · simp only [smoothValue, if_pos h]
        simp only [List.length_tail, List.length_append, List.length_cons,
          List.length_nil]
        omega
      · intro _
        simp only [smoothValue, if_pos h]
      · simp only [smoothValue, if_pos h, List.length_insertionSort]
    · refine ⟨?_, ?_, ?_⟩
      · simp only [smoothValue, if_neg h]
        simp only [List.length_append, List.length_cons, List.length_nil] at h ⊢
        omega
      · intro hover
        exfalso
        apply h
        simp only [List.length_append, List.length_cons, List.length_nil]
        omega
      · simp only [smoothValue, if_neg h, List.length_insertionSort]
  · norm_num [smoothValue, List.insertionSort, List.orderedInsert]

/-- Witness for C9: the FIFO bound applied at a concrete append into an empty
5-slot buffer. -/
theorem smoothValue_bounded_fifo_witness :
    ([] : List ℝ).length ≤ 5 ∧
    (smoothValue 5 ([] : List ℝ) 100).2.length ≤ 5 := by
  exact ⟨by simp, (smoothValue_bounded_fifo.1 ℝ 5 [] 100 (by simp)).1⟩

/-! ### Cluster score lemmas (C3, C10) -/

/-- The total length of a cluster of non-negative-length segments is
non-negative. -/
theorem totalLengthOf_nonneg (c : List Segment) (h : ∀ l ∈ c, 0 ≤ l.length) :
    0 ≤ totalLengthOf c := by
  apply List.sum_nonneg
  intro x hx
  rcases List.mem_map.mp hx with ⟨l, hl, rfl⟩
  exact h l hl

/-- The length-weighted angle sum is bounded by `90 ·totalLength` when every
angle lies in `[-90, 90]`. -/
theorem weightedAngleSum_abs_le (c : List Segment)
    (h : ∀ l ∈ c, 0 ≤ l.length ∧ |l.angle| ≤ 90) :
    |weightedAngleSum c| ≤ 90 * totalLengthOf c := by
  induction c with
  | nil => simp [weightedAngleSum, totalLengthOf]
  | cons l t ih =>
    have hl := h l (List.mem_cons_self _ _)
    have iht := ih fun z hz => h z (List.mem_cons_of_mem _ hz)
    simp only [weightedAngleSum, totalLengthOf, List.map_cons, List.sum_cons] at iht ⊢
    have h1 := abs_add (l.angle * l.length) ((t.map fun s => s.angle * s.length).sum)
    have h2 : |l.angle * l.length| = |l.angle| * l.length := by
      rw [abs_mul, abs_of_nonneg hl.1]
    have h3 : |l.angle| * l.length ≤ 90 * l.length :=
      mul_le_mul_of_nonneg_right hl.2 hl.1
    have h4 : 90 * (l.length + (t.map Segment.length).sum) =
        90 * l.length + 90 * (t.map Segment.length).sum := by ring
    rw [h4]
    linarith

/-- The cluster score in product-free form:
`√segmentCount · (totalLength − |Σ angle·length| / 150)`. -/
theorem clusterScore_eq (c : List Segment)
    (h : ∀ l ∈ c, 0 ≤ l.length ∧ |l.angle| ≤ 90) :
    clusterScore c = Real.sqrt c.length * (totalLengthOf c - |weightedAngleSum c| / 150) := by
  have hL : 0 ≤ totalLengthOf c := totalLengthOf_nonneg c fun l hl => (h l hl).1
  rcases eq_or_lt_of_le hL with hz | hp
  · have hA : weightedAngleSum c = 0 := by
      have hle := weightedAngleSum_abs_le c h
      rw [← hz] at hle
      simpa using abs_nonpos_iff.mp (by linarith)
    rw [clusterScore, angleBonusOf, avgAngleOf, hA, ← hz]
    simp
  · rw [clusterScore, angleBonusOf, avgAngleOf, abs_div, abs_of_pos hp]
    field_simp
    ring

/-- The inner factor of the product-free score form is non-negative. -/
theorem clusterScore_inner_nonneg (c : List Segment)
    (h : ∀ l ∈ c, 0 ≤ l.length ∧ |l.angle| ≤ 90) :
    0 ≤ totalLengthOf c - |weightedAngleSum c| / 150 := by
  have hL : 0 ≤ totalLengthOf c := totalLengthOf_nonneg c fun l hl => (h l hl).1
  have hA := weightedAngleSum_abs_le c h
  linarith

/-- The score of a cluster of well-formed segments is non-negative. -/
theorem clusterScore_nonneg (c : List Segment)
    (h : ∀ l ∈ c, 0 ≤ l.length ∧ |l.angle| ≤ 90) : 0 ≤ clusterScore c := by
  rw [clusterScore_eq c h]
  exact mul_nonneg (Real.sqrt_nonneg _) (clusterScore_inner_nonneg c h)

/-- C3: adding a segment of positive length and angle in `[-90, 90]` to a
cluster of well-formed segments never decreases the cluster score
`totalLength · √segmentCount · (0.7 + 0.3·angleBonus)`. -/
theorem clusterScore_mono_add (c : List Segment) (x : Segment)
    (hc : ∀ l ∈ c, 0 ≤ l.length ∧ |l.angle| ≤ 90)
    (hx : 0 < x.length) (ha : |x.angle| ≤ 90) :
    clusterScore c ≤ clusterScore (x :: c) := by
  have hcx : ∀ l ∈ x :: c, 0 ≤ l.length ∧ |l.angle| ≤ 90 := by
    intro l hl
    rcases List.mem_cons.mp hl with rfl | hl
    · exact ⟨hx.le, ha⟩
    · exact hc l hl
  rw [clusterScore_eq c hc, clusterScore_eq _ hcx]
  have hI : 0 ≤ totalLengthOf c - |weightedAngleSum c| / 150 :=
    clusterScore_inner_nonneg c hc
  have hLx : totalLengthOf (x :: c) = x.length + totalLengthOf c := by
    simp [totalLengthOf]
  have hAx : weightedAngleSum (x :: c) = x.angle * x.length + weightedAngleSum c := by
    simp [weightedAngleSum]
  have hAbs : |weightedAngleSum (x :: c)| ≤ 90 * x.length + |weightedAngleSum c| := by
    rw [hAx]
    have h1 := abs_add (x.angle * x.length) (weightedAngleSum c)
    have h2 : |x.angle * x.length| = |x.angle| * x.length := by
      rw [abs_mul, abs_of_pos hx]
    have h3 : |x.angle| * x.length ≤ 90 * x.length :=
      mul_le_mul_of_nonneg_right ha hx.le
    linarith
  have hInner : totalLengthOf c - |weightedAngleSum c| / 150 ≤
      totalLengthOf (x :: c) - |weightedAngleSum (x :: c)| / 150 := by
    rw [hLx]
    linarith
  have hSqrt : Real.sqrt c.length ≤ Real.sqrt ((x :: c).length) := by
    apply Real.sqrt_le_sqrt
    push_cast [List.length_cons]
    linarith
  exact mul_le_mul hSqrt hInner hI (Real.sqrt_nonneg _)

/-- Witness for C3: adding a unit-length horizontal segment to a singleton
cluster does not decrease the score. -/
theorem clusterScore_mono_add_witness :
    (∀ l ∈ [(⟨0, 0, 1⟩ : Segment)], 0 ≤ l.length ∧ |l.angle| ≤ 90) ∧
    (0 : ℝ) < (⟨0, 0, 1⟩ : Segment).length ∧
    |(⟨0, 0, 1⟩ : Segment).angle| ≤ 90 ∧
    clusterScore [⟨0, 0, 1⟩] ≤ clusterScore (⟨0, 0, 1⟩ :: [⟨0, 0, 1⟩]) := by
  have h1 : ∀ l ∈ [(⟨0, 0, 1⟩ : Segment)], 0 ≤ l.length ∧ |l.angle| ≤ 90 := by
    intro l hl
    simp only [List.mem_singleton] at hl
    subst hl
    exact ⟨by norm_num, by norm_num⟩
  exact ⟨h1, by norm_num, by norm_num,
    clusterScore_mono_add _ _ h1 (by norm_num) (by norm_num)⟩

/-- The total length of a non-empty cluster of positive-length segments is
positive. -/
theorem totalLengthOf_pos (c : List Segment) (hne : c ≠ [])
    (h : ∀ l ∈ c, 0 < l.length) : 0 < totalLengthOf c := by
  apply List.sum_pos
  · intro x hx
    rcases List.mem_map.mp hx with ⟨l, hl, rfl⟩
    exact h l hl
  · exact fun hmap => hne (List.map_eq_nil_iff.mp hmap)

/-- Strict bound on the weighted angle sum when every angle is strictly inside
`(-45, 45)` and every length is positive. -/
theorem weightedAngleSum_abs_lt (c : List Segment) (hne : c ≠ [])
    (h : ∀ l ∈ c, 0 < l.length ∧ |l.angle| < 45) :
    |weightedAngleSum c| < 45 * totalLengthOf c := by
  induction c with
  | nil => exact absurd rfl hne
  | cons l t ih =>
    have hl := h l (List.mem_cons_self _ _)
    have h2 : |l.angle * l.length| = |l.angle| * l.length := by
      rw [abs_mul, abs_of_pos hl.1]
    have h3 : |l.angle| * l.length < 45 * l.length :=
      mul_lt_mul_of_pos_right hl.2 hl.1
    by_cases ht : t = []
    · subst ht
      simp only [weightedAngleSum, totalLengthOf, List.map_cons, List.map_nil,
        List.sum_cons, List.sum_nil, add_zero]
      rw [h2]
      exact h3
    · have iht := ih ht fun z hz => h z (List.mem_cons_of_mem _ hz)
      simp only [weightedAngleSum, totalLengthOf, List.map_cons, List.sum_cons] at iht ⊢
      have h1 := abs_add (l.angle * l.length) ((t.map fun s => s.angle * s.length).sum)
      have h4 : 45 * (l.length + (t.map Segment.length).sum) =
          45 * l.length + 45 * (t.map Segment.length).sum := by ring
      rw [h4]
      linarith

/-- The selection loop of `_selectBestCluster` returns a record whose score
dominates every listed cluster's score and the accumulator's score. -/
theorem selectLoop_ge :
    ∀ (cs : List (List Segment)) (acc : Option BestCluster) (b : BestCluster),
      selectLoop acc cs = some b →
      (∀ cl ∈ cs, clusterScore cl ≤ b.score) ∧
      (∀ a, acc = some a → a.score ≤ b.score) := by
  intro cs
  induction cs with
  | nil =>
    intro acc b h
    rw [selectLoop] at h
    refine ⟨fun cl hcl => absurd hcl (List.not_mem_nil _), fun a ha => ?_⟩
    rw [ha] at h
    exact le_of_eq (congrArg BestCluster.score (Option.some_inj.mp h))
  | cons c cs ih =>
    intro acc b h
    rcases acc with _ | a0
    · rw [selectLoop] at h
      have h₂ : selectLoop (some (mkBest c)) cs = some b := h
      have hrec := ih (some (mkBest c)) b h₂
      refine ⟨?_, fun a ha => Option.noConfusion ha⟩
      intro cl hcl
      rcases List.mem_cons.mp hcl with rfl | hcl
      · simpa [mkBest] using hrec.2 (mkBest cl) rfl
      · exact hrec.1 cl hcl
    · rw [selectLoop] at h
      have h₂ : selectLoop
          (if clusterScore c > a0.score then some (mkBest c) else some a0) cs = some b := h
      by_cases hgt : clusterScore c > a0.score
      · rw [if_pos hgt] at h₂
        have hrec := ih (some (mkBest c)) b h₂
        refine ⟨?_, ?_⟩
        · intro cl hcl
          rcases List.mem_cons.mp hcl with rfl | hcl
          · simpa [mkBest] using hrec.2 (mkBest cl) rfl
          · exact hrec.1 cl hcl
        · intro a ha
          have hmk : (mkBest c).score = clusterScore c := by simp [mkBest]
          have hab := hrec.2 (mkBest c) rfl
          rw [hmk] at hab
          have : a0 = a := Option.some_inj.mp ha
          subst this
          linarith
      · rw [if_neg hgt] at h₂
        have hrec := ih (some a0) b h₂
        refine ⟨?_, fun a ha => hrec.2 a ha⟩
        intro cl hcl
        rcases List.mem_cons.mp hcl with rfl | hcl
        · exact le_trans (not_lt.mp hgt) (hrec.2 a0 rfl)
        · exact hrec.1 cl hcl

/-- The selection loop yields either the record of a listed cluster or its
accumulator. -/
theorem selectLoop_some_inv :
    ∀ (cs : List (List Segment)) (acc : Option BestCluster) (b : BestCluster),
      selectLoop acc cs = some b →
      (∃ cl ∈ cs, b = mkBest cl) ∨ acc = some b := by
  intro cs
  induction cs with
  | nil =>
    intro acc b h
    rw [selectLoop] at h
    exact Or.inr h
  | cons c cs ih =>
    intro acc b h
    rcases acc with _ | a0
    · rw [selectLoop] at h
      have h₂ : selectLoop (some (mkBest c)) cs = some b := h
      rcases ih (some (mkBest c)) b h₂ with ⟨cl, hcl, hb⟩ | hb
      · exact Or.inl ⟨cl, List.mem_cons_of_mem _ hcl, hb⟩
      · exact Or.inl ⟨c, List.mem_cons_self _ _, (Option.some_inj.mp hb).symm⟩
    · rw [selectLoop] at h
      have h₂ : selectLoop
          (if clusterScore c > a0.score then some (mkBest c) else some a0) cs = some b := h
      by_cases hgt : clusterScore c > a0.score
      · rw [if_pos hgt] at h₂
        rcases ih (some (mkBest c)) b h₂ with ⟨cl, hcl, hb⟩ | hb
        · exact Or.inl ⟨cl, List.mem_cons_of_mem _ hcl, hb⟩
        · exact Or.inl ⟨c, List.mem_cons_self _ _, (Option.some_inj.mp hb).symm⟩
      · rw [if_neg hgt] at h₂
        rcases ih (some a0) b h₂ with ⟨cl, hcl, hb⟩ | hb
        · exact Or.inl ⟨cl, List.mem_cons_of_mem _ hcl, hb⟩
        · exact Or.inr hb

/-- C10: a non-empty cluster of horizon candidates (positive length,
`|angle| < 45`) has length-weighted mean angle strictly inside `(-45, 45)`,
unclamped angle bonus in `(0, 1]`, and strictly positive score; and the best
cluster selected by `_selectBestCluster` dominates every cluster's score, so
a cluster with positive score is never beaten by one with non-positive
score. -/
theorem horizonCluster_positive_score :
    (∀ (c : List Segment), c ≠ [] → (∀ l ∈ c, 0 < l.length ∧ |l.angle| < 45) →
      |avgAngleOf c| < 45 ∧ 0 < angleBonusOf c ∧ angleBonusOf c ≤ 1 ∧
        0 < clusterScore c) ∧
    (∀ (clusters : List (List Segment)) (b : BestCluster),
      selectBestCluster clusters = some b →
      (∀ cl ∈ clusters, clusterScore cl ≤ b.score) ∧
      ((∃ cl ∈ clusters, 0 < clusterScore cl) → 0 < b.score)) := by
  constructor
  · intro c hne h
    have hL : 0 < totalLengthOf c := totalLengthOf_pos c hne fun l hl => (h l hl).1
    have hA : |weightedAngleSum c| < 45 * totalLengthOf c :=
      weightedAngleSum_abs_lt c hne h
    have havg : |avgAngleOf c| < 45 := by
      rw [avgAngleOf, abs_div, abs_of_pos hL, div_lt_iff₀ hL]
      linarith
    have hbonus_pos : 0 < angleBonusOf c := by
      rw [angleBonusOf]
      have hd : |avgAngleOf c| / 45 < 1 := by
        rw [div_lt_one (by norm_num : (0 : ℝ) < 45)]
        exact havg
      linarith
    have hbonus_le : angleBonusOf c ≤ 1 := by
      rw [angleBonusOf]
      have := abs_nonneg (avgAngleOf c)
      have hd : 0 ≤ |avgAngleOf c| / 45 := by positivity
      linarith
    refine ⟨havg, hbonus_pos, hbonus_le, ?_⟩
    rw [clusterScore]
    have hn : (0 : ℝ) < c.length := by
      exact_mod_cast List.length_pos.mpr hne
    have hfac : 0 < 0.7 + 0.3 * angleBonusOf c := by
      have := mul_pos (by norm_num : (0 : ℝ) < 0.3) hbonus_pos
      linarith
    exact mul_pos (mul_pos hL (Real.sqrt_pos.mpr hn)) hfac
  · intro clusters b hsel
    have h := selectLoop_ge clusters none b hsel
    refine ⟨h.1, ?_⟩
    rintro ⟨cl, hcl, hpos⟩
    exact lt_of_lt_of_le hpos (h.1 cl hcl)

/-- Witness for C10: a singleton horizontal unit segment yields positive
score, and its selected record dominates the cluster list. -/
theorem horizonCluster_positive_score_witness :
    (0 : ℝ) < clusterScore [⟨0, 0, 1⟩] ∧
    (∀ cl ∈ [[(⟨0, 0, 1⟩ : Segment)]], clusterScore cl ≤ (mkBest [⟨0, 0, 1⟩]).score) := by
  have hsel : selectBestCluster [[(⟨0, 0, 1⟩ : Segment)]] = some (mkBest [⟨0, 0, 1⟩]) := rfl
  have h1 : ∀ l ∈ [(⟨0, 0, 1⟩ : Segment)], 0 < l.length ∧ |l.angle| < 45 := by
    intro l hl
    simp only [List.mem_singleton] at hl
    subst hl
    exact ⟨by norm_num, by norm_num⟩
  exact ⟨(horizonCluster_positive_score.1 [⟨0, 0, 1⟩] (by simp) h1).2.2.2,
    (horizonCluster_positive_score.2 [[⟨0, 0, 1⟩]] (mkBest [⟨0, 0, 1⟩]) hsel).1⟩

/-! ### Output invariants (C5) -/

/-- The weighted median of a non-empty list is the value of one of its items. -/
theorem weightedMedian_mem {α : Type} [LinearOrderedField α] (items : List (WItem α))
    (hne : items ≠ []) : ∃ x ∈ items, weightedMedian items = x.v := by
  match items with
  | [x] => exact ⟨x, by simp, rfl⟩
  | x :: y :: rest =>
    have hlen : ((x :: y :: rest).insertionSort (fun a b => a.v ≤ b.v)).length =
        (x :: y :: rest).length := List.length_insertionSort _ _
    have hsne : (x :: y :: rest).insertionSort (fun a b => a.v ≤ b.v) ≠ [] := by
      intro h
      rw [h] at hlen
      simp at hlen
    rcases h : wmScan
        ((((x :: y :: rest).insertionSort (fun a b => a.v ≤ b.v)).map WItem.w).sum / 2) 0
        ((x :: y :: rest).insertionSort (fun a b => a.v ≤ b.v)) with _ | v
    · refine ⟨((x :: y :: rest).insertionSort (fun a b => a.v ≤ b.v)).getLast hsne,
        (List.perm_insertionSort (fun a b => a.v ≤ b.v) (x :: y :: rest)).mem_iff.mp
          (List.getLast_mem hsne), ?_⟩
      simp only [weightedMedian]
      rw [h, List.getLast?_eq_getLast _ hsne]
      rfl
    · rcases wmScan_mem _ _ _ _ h with ⟨z, hz, hv⟩
      refine ⟨z,
        (List.perm_insertionSort (fun a b => a.v ≤ b.v) (x :: y :: rest)).mem_iff.mp hz, ?_⟩
      simp only [weightedMedian]
      rw [h, hv]

/-- The returned smoothed value is a member of the new buffer (or the default 0
for an impossible empty buffer). -/
theorem smoothValue_fst_mem {α : Type} [LinearOrderedField α] (ms : ℕ) (buf : List α)
    (v : α) :
    (smoothValue ms buf v).1 ∈ (smoothValue ms buf v).2 ∨ (smoothValue ms buf v).1 = 0 := by
  simp only [smoothValue]
  by_cases hidx :
      (((if ms < (buf ++ [v]).length then (buf ++ [v]).tail else buf ++ [v]).insertionSort
        (fun a b => a ≤ b)).length) / 2 <
      ((if ms < (buf ++ [v]).length then (buf ++ [v]).tail else buf ++ [v]).insertionSort
        (fun a b => a ≤ b)).length
  · left
    rw [List.getD_eq_getElem _ _ hidx]
    exact (List.perm_insertionSort _ _).mem_iff.mp (List.getElem_mem hidx)
  · right
    exact List.getD_eq_default _ _ (not_lt.mp hidx)

/-- The new buffer's samples come from the old buffer plus the new sample. -/
theorem smoothValue_snd_subset {α : Type} [LinearOrderedField α] (ms : ℕ) (buf : List α)
    (v : α) : (smoothValue ms buf v).2 ⊆ buf ++ [v] := by
  simp only [smoothValue]
  by_cases h : ms < (buf ++ [v]).length
  · rw [if_pos h]
    exact List.tail_subset _
  · rw [if_neg h]
    exact fun x hx => hx

/-- `_selectBestCluster` returns the record of one of its clusters. -/
theorem selectBestCluster_inv (cs : List (List Segment)) (b : BestCluster)
    (h : selectBestCluster cs = some b) : ∃ cl ∈ cs, b = mkBest cl := by
  rcases selectLoop_some_inv cs none b h with h₂ | h₂
  · exact h₂
  · exact Option.noConfusion h₂

/-- Members of every collinear cluster come from the candidate list. -/
theorem collinearClustersOf_subset (cfg : Config) (params : Params)
    (candidates : List Segment) (cl : List Segment)
    (h : cl ∈ collinearClustersOf cfg params candidates) : ∀ x ∈ cl, x ∈ candidates := by
  rcases List.mem_flatten.mp h with ⟨sub, hsub, hcl⟩
  rcases List.mem_map.mp hsub with ⟨ac, hac, rfl⟩
  intro x hx
  exact clusterByProperty_subset _ _ _ candidates ac hac x
    (clusterByProperty_subset _ _ _ ac cl hcl x hx)

/-- C5: every produced horizon estimate has angle in `[-90, 90]` and confidence
in `[0, 1]`, the confidence being `min(score/(diagonal·0.8), 1)` for the
selected cluster's score. -/
theorem detectHorizon_output_bounds (cfg : Config) (params : Params)
    (width height : ℝ) (candidates : List Segment) (st : Buffers) (est : Estimate)
    (hw : 0 < width)
    (hcand : ∀ s ∈ candidates, 0 ≤ s.length ∧ |s.angle| ≤ 90)
    (hbuf : ∀ a ∈ st.horizonAngle, |a| ≤ 90)
    (hsome : (detectHorizon cfg params width height candidates st).1 = some est) :
    |est.angle| ≤ 90 ∧ 0 ≤ est.confidence ∧ est.confidence ≤ 1 ∧
    ∃ b, selectBestCluster (collinearClustersOf cfg params candidates) = some b ∧
      est.confidence = min (b.score / (Real.sqrt (width * width + height * height) * 0.8)) 1 := by
  unfold detectHorizon at hsome
  split_ifs at hsome with h1 h2 h3
  rcases hsel : selectBestCluster (collinearClustersOf cfg params candidates) with _ | best
  · rw [hsel] at hsome
    simp at hsome
  · rw [hsel] at hsome
    have hsome₂ : some (buildHorizonLine cfg width height best st).1 = some est := hsome
    have hest : (buildHorizonLine cfg width height best st).1 = est :=
      Option.some_inj.mp hsome₂
    rcases selectBestCluster_inv _ _ hsel with ⟨cl, hclmem, rfl⟩
    have hclgood : ∀ l ∈ cl, 0 ≤ l.length ∧ |l.angle| ≤ 90 := fun l hl =>
      hcand l (collinearClustersOf_subset cfg params candidates cl hclmem l hl)
    subst hest
    simp only [buildHorizonLine, mkBest]
    have hmb : |weightedMedian (cl.map fun l => (⟨l.angle, l.length⟩ : WItem ℝ))| ≤ 90 := by
      by_cases hne : cl.map (fun l => (⟨l.angle, l.length⟩ : WItem ℝ)) = []
      · rw [hne]
        norm_num [weightedMedian]
      · rcases weightedMedian_mem _ hne with ⟨x, hxmem, heq⟩
        rw [heq]
        rcases List.mem_map.mp hxmem with ⟨l, hl, rfl⟩
        exact (hclgood l hl).2
    have hangle : |(smoothValue cfg.smoothFrames st.horizonAngle
        (weightedMedian (cl.map fun l => (⟨l.angle, l.length⟩ : WItem ℝ)))).1| ≤ 90 := by
      rcases smoothValue_fst_mem cfg.smoothFrames st.horizonAngle
          (weightedMedian (cl.map fun l => (⟨l.angle, l.length⟩ : WItem ℝ))) with hm | hz
      · have hsub := smoothValue_snd_subset cfg.smoothFrames st.horizonAngle
          (weightedMedian (cl.map fun l => (⟨l.angle, l.length⟩ : WItem ℝ)))
        rcases List.mem_append.mp (hsub hm) with ho | hn
        · exact hbuf _ ho
        · rw [List.mem_singleton.mp hn]
          exact hmb
      · rw [hz]
        norm_num
    have hscore : 0 ≤ clusterScore cl := clusterScore_nonneg cl hclgood
    have hdiag : 0 < Real.sqrt (width * width + height * height) * 0.8 := by
      have hsum : 0 < width * width + height * height := by nlinarith
      have := Real.sqrt_pos.mpr hsum
      linarith
    refine ⟨hangle, ?_, ?_, ⟨mkBest cl, rfl, ?_⟩⟩
    · exact le_min (div_nonneg hscore hdiag.le) zero_le_one
    · exact min_le_right _ _
    · simp [mkBest]

/-- Witness for C5: a 4×3 frame with a single horizontal unit candidate at
offset 0 produces the estimate (y 0, angle 0, confidence 1/4), which satisfies
all the stated bounds. -/
theorem detectHorizon_output_bounds_witness :
    (0 : ℝ) < 4 ∧
    (∀ s ∈ [(⟨0, 0, 1⟩ : Segment)], 0 ≤ s.length ∧ |s.angle| ≤ 90) ∧
    (∀ a ∈ (Buffers.mk [] []).horizonAngle, |a| ≤ 90) ∧
    (detectHorizon defaultConfig ⟨10, 8⟩ 4 3 [⟨0, 0, 1⟩] ⟨[], []⟩).1 =
      some ⟨0, 0, 0, [⟨0, 0, 1⟩], 1 / 4, 1, 1⟩ ∧
    (|(⟨0, 0, 0, [⟨0, 0, 1⟩], 1 / 4, 1, 1⟩ : Estimate).angle| ≤ 90 ∧
      0 ≤ (⟨0, 0, 0, [⟨0, 0, 1⟩], 1 / 4, 1, 1⟩ : Estimate).confidence ∧
      (⟨0, 0, 0, [⟨0, 0, 1⟩], 1 / 4, 1, 1⟩ : Estimate).confidence ≤ 1 ∧
      ∃ b, selectBestCluster (collinearClustersOf defaultConfig ⟨10, 8⟩ [⟨0, 0, 1⟩]) = some b ∧
        (⟨0, 0, 0, [⟨0, 0, 1⟩], 1 / 4, 1, 1⟩ : Estimate).confidence =
          min (b.score / (Real.sqrt ((4 : ℝ) * 4 + 3 * 3) * 0.8)) 1) := by
  have hc : ∀ s ∈ [(⟨0, 0, 1⟩ : Segment)], 0 ≤ s.length ∧ |s.angle| ≤ 90 := by
    intro s hs
    simp only [List.mem_singleton] at hs
    subst hs
    exact ⟨by norm_num, by norm_num⟩
  have hb : ∀ a ∈ (Buffers.mk ([] : List ℝ) []).horizonAngle, |a| ≤ 90 := by
    intro a ha
    exact absurd ha (List.not_mem_nil a)
  have hseedA : clusterSeeded Segment.angle (8 : ℝ) [⟨0, 0, 1⟩] = [[⟨0, 0, 1⟩]] := by
    rw [clusterSeeded]
    simp [clusterSeeded]
  have hseedD : clusterSeeded Segment.d (10 : ℝ) [⟨0, 0, 1⟩] = [[⟨0, 0, 1⟩]] := by
    rw [clusterSeeded]
    simp [clusterSeeded]
  have hcluA : clusterByProperty Segment.angle (8 : ℝ) 1 [⟨0, 0, 1⟩] = [[⟨0, 0, 1⟩]] := by
    simp [clusterByProperty, hseedA]
  have hcluD : clusterByProperty Segment.d (10 : ℝ) 1 [⟨0, 0, 1⟩] = [[⟨0, 0, 1⟩]] := by
    simp [clusterByProperty, hseedD]
  have hang : angleClustersOf defaultConfig ⟨10, 8⟩ [⟨0, 0, 1⟩] = [[⟨0, 0, 1⟩]] := hcluA
  have hcoll : collinearClustersOf defaultConfig ⟨10, 8⟩ [⟨0, 0, 1⟩] = [[⟨0, 0, 1⟩]] := by
    rw [collinearClustersOf, hang]
    simp only [List.map_cons, List.map_nil]
    rw [show clusterByProperty Segment.d
        (Params.clusterToleranceD ⟨10, 8⟩) (defaultConfig.minClusterSegments)
        [(⟨0, 0, 1⟩ : Segment)] = [[⟨0, 0, 1⟩]] from hcluD]
    rfl
  have hsel : selectBestCluster (collinearClustersOf defaultConfig ⟨10, 8⟩ [⟨0, 0, 1⟩]) =
      some (mkBest [⟨0, 0, 1⟩]) := by
    rw [hcoll]
    rfl
  have hscore : clusterScore [(⟨0, 0, 1⟩ : Segment)] = 1 := by
    norm_num [clusterScore, angleBonusOf, avgAngleOf, weightedAngleSum, totalLengthOf,
      Real.sqrt_one]
  have hsqrt : Real.sqrt ((4 : ℝ) * 4 + 3 * 3) = 5 := by
    rw [show ((4 : ℝ) * 4 + 3 * 3) = 5 ^ 2 by norm_num]
    exact Real.sqrt_sq (by norm_num)
  have hinv : invertAtCenter 4 3 0 0 = 0 := by
    simp only [invertAtCenter]
    rw [show ((0 : ℝ) * Real.pi / 180) = 0 by ring, Real.cos_zero, Real.sin_zero]
    rw [if_pos (by norm_num : (0.001 : ℝ) < |(1 : ℝ)|)]
    norm_num
  have hsm : ∀ v : ℝ, smoothValue 5 ([] : List ℝ) v = (v, [v]) := by
    intro v
    simp [smoothValue, List.insertionSort, List.orderedInsert]
  have hmedA : weightedMedian
      ([(⟨0, 0, 1⟩ : Segment)].map fun l => (⟨l.angle, l.length⟩ : WItem ℝ)) = 0 := by
    simp [weightedMedian]
  have hmedD : weightedMedian
      ([(⟨0, 0, 1⟩ : Segment)].map fun l => (⟨l.d, l.length⟩ : WItem ℝ)) = 0 := by
    simp [weightedMedian]
  have hbuild : (buildHorizonLine defaultConfig 4 3 (mkBest [⟨0, 0, 1⟩]) ⟨[], []⟩).1 =
      (⟨0, 0, 0, [⟨0, 0, 1⟩], 1 / 4, 1, 1⟩ : Estimate) := by
    simp only [buildHorizonLine, mkBest, defaultConfig, hmedA, hmedD, hinv, hsm]
    rw [hscore, hsqrt]
    norm_num [totalLengthOf, min_def]
  have hsome : (detectHorizon defaultConfig ⟨10, 8⟩ 4 3 [⟨0, 0, 1⟩] ⟨[], []⟩).1 =
      some (⟨0, 0, 0, [⟨0, 0, 1⟩], 1 / 4, 1, 1⟩ : Estimate) := by
    have hsel₂ : selectBestCluster [[(⟨0, 0, 1⟩ : Segment)]] = some (mkBest [⟨0, 0, 1⟩]) := rfl
    simp only [detectHorizon, hang, hcoll, hsel₂]
    norm_num [hbuild]
  exact ⟨by norm_num, hc, hb, hsome,
    detectHorizon_output_bounds defaultConfig ⟨10, 8⟩ 4 3 [⟨0, 0, 1⟩] ⟨[], []⟩ _
      (by norm_num) hc hb hsome⟩

/-! ### Classification (C6, C8) -/

/-- `atan2` in degrees lies in `(-180, 180]`. -/
theorem atan2deg_bounds (y x : ℝ) : -180 < atan2deg y x ∧ atan2deg y x ≤ 180 := by
  have h1 := Complex.neg_pi_lt_arg (⟨x, y⟩ : ℂ)
  have h2 := Complex.arg_le_pi (⟨x, y⟩ : ℂ)
  have hpi := Real.pi_pos
  unfold atan2deg
  constructor
  · rw [lt_div_iff₀ hpi]
    linarith
  · rw [div_le_iff₀ hpi]
    linarith

/-- The raw angle derived in `_classifyLines` lies in `(-180, 180]`. -/
theorem derive_rawAngle_bounds (r : RawLine) :
    -180 < (derive r).rawAngle ∧ (derive r).rawAngle ≤ 180 :=
  atan2deg_bounds _ _

/-- The derived angle is the normalization of the derived raw angle. -/
theorem derive_angle_eq (r : RawLine) :
    (derive r).angle = normalizeAngle ((derive r).rawAngle) := rfl

/-- Membership in the horizon-candidate list is exactly
`|normalized angle| < maxHorizonAngle`. -/
theorem horizonCandidatesOf_mem (cfg : Config) (lines : List RawLine) (dl : DerivedLine) :
    dl ∈ horizonCandidatesOf cfg lines ↔
      dl ∈ lines.map derive ∧ |dl.angle| < cfg.horizonMaxAngle := by
  simp [horizonCandidatesOf, List.mem_filter]

/-- Membership in the wall-candidate list is exactly
`||raw angle| − 90| < wallAngleTolerance`. -/
theorem wallCandidatesOf_mem (cfg : Config) (lines : List RawLine) (dl : DerivedLine) :
    dl ∈ wallCandidatesOf cfg lines ↔
      dl ∈ lines.map derive ∧ abs (|dl.rawAngle| - 90) < cfg.wallAngleTolerance := by
  simp [wallCandidatesOf, List.mem_filter]

/-- For an angle in `(-180, 180]`, the horizon test on the normalized angle
and the wall test on the raw angle cannot both pass when
`maxHorizonAngle + wallAngleTolerance ≤ 90`. -/
theorem normalizeAngle_no_overlap (a H T : ℝ) (h1 : -180 < a) (h2 : a ≤ 180)
    (hH : |normalizeAngle a| < H) (hT : abs (|a| - 90) < T) (hsum : H + T ≤ 90) :
    False := by
  simp only [normalizeAngle] at hH
  by_cases hg : a > 90
  · rw [if_pos hg, if_neg (by linarith : ¬(a - 180 < -90))] at hH
    rw [abs_of_nonpos (by linarith)] at hH
    rw [abs_of_pos (by linarith : (0 : ℝ) < a)] at hT
    rw [abs_of_nonneg (by linarith : (0 : ℝ) ≤ a - 90)] at hT
    linarith
  · rw [if_neg hg] at hH
    by_cases hl : a < -90
    · rw [if_pos hl] at hH
      rw [abs_of_pos (by linarith : (0 : ℝ) < a + 180)] at hH
      rw [abs_of_neg (by linarith : a < 0)] at hT
      rw [abs_of_nonneg (by linarith : (0 : ℝ) ≤ -a - 90)] at hT
      linarith
    · rw [if_neg hl] at hH
      have habs : |a| ≤ 90 := abs_le.mpr ⟨by linarith, by linarith⟩
      rw [abs_of_nonpos (by linarith)] at hT
      linarith [abs_nonneg a]

/-- Counterexample for C8 as stated for *every* configuration: with
`maxHorizonAngle = 91` (and the default wall tolerance 15), the vertical
segment (0,0)–(0,1), whose raw and normalized angle are both 90°, is placed
in both the horizon class and the wall class. -/
theorem classify_both_classes_counterexample :
    derive ⟨0, 0, 0, 1⟩ ∈ horizonCandidatesOf { horizonMaxAngle := 91 } [⟨0, 0, 0, 1⟩] ∧
    derive ⟨0, 0, 0, 1⟩ ∈ wallCandidatesOf { horizonMaxAngle := 91 } [⟨0, 0, 0, 1⟩] := by
  have hI : ((⟨(0 : ℝ) - 0, (1 : ℝ) - 0⟩ : ℂ)) = Complex.I := by
    apply Complex.ext <;> simp
  have hraw : (derive ⟨0, 0, 0, 1⟩).rawAngle = 90 := by
    show atan2deg ((1 : ℝ) - 0) ((0 : ℝ) - 0) = 90
    rw [atan2deg, hI, Complex.arg_I]
    field_simp
    ring
  have hangle : (derive ⟨0, 0, 0, 1⟩).angle = 90 := by
    rw [derive_angle_eq, hraw]
    norm_num [normalizeAngle]
  constructor
  · rw [horizonCandidatesOf_mem]
    refine ⟨by simp, ?_⟩
    rw [hangle]
    norm_num
  · rw [wallCandidatesOf_mem]
    refine ⟨by simp, ?_⟩
    rw [hraw]
    norm_num

/-- C8 (amended): the classification tests are exactly as specified
(horizon: `|normalized angle| < maxHorizonAngle`; wall:
`||raw angle| − 90| < wallAngleTolerance`), a segment may be in neither class,
and the two classes are disjoint whenever
`maxHorizonAngle + wallAngleTolerance ≤ 90` (which holds for the defaults
45° and 15°) — but not for every configuration. -/
theorem classify_classes_amended :
    ∀ (cfg : Config) (lines : List RawLine) (dl : DerivedLine),
      (dl ∈ horizonCandidatesOf cfg lines ↔
        dl ∈ lines.map derive ∧ |dl.angle| < cfg.horizonMaxAngle) ∧
      (dl ∈ wallCandidatesOf cfg lines ↔
        dl ∈ lines.map derive ∧ abs (|dl.rawAngle| - 90) < cfg.wallAngleTolerance) ∧
      (cfg.horizonMaxAngle + cfg.wallAngleTolerance ≤ 90 →
        ¬(dl ∈ horizonCandidatesOf cfg lines ∧ dl ∈ wallCandidatesOf cfg lines)) := by
  intro cfg lines dl
  refine ⟨horizonCandidatesOf_mem cfg lines dl, wallCandidatesOf_mem cfg lines dl, ?_⟩
  rintro hsum ⟨hh, hwall⟩
  rw [horizonCandidatesOf_mem] at hh
  rw [wallCandidatesOf_mem] at hwall
  rcases List.mem_map.mp hh.1 with ⟨r, _, rfl⟩
  have hb := derive_rawAngle_bounds r
  have hH : |normalizeAngle ((derive r).rawAngle)| < cfg.horizonMaxAngle := by
    rw [← derive_angle_eq]
    exact hh.2
  exact normalizeAngle_no_overlap (derive r).rawAngle cfg.horizonMaxAngle
    cfg.wallAngleTolerance hb.1 hb.2 hH hwall.2 hsum

/-- Witness for the amended C8: under the default configuration (45° + 15° ≤
90°) no derived line is in both classes. -/
theorem classify_classes_amended_witness :
    defaultConfig.horizonMaxAngle + defaultConfig.wallAngleTolerance ≤ 90 ∧
    ¬((⟨0, 0, 0, 0, 0, 0⟩ : DerivedLine) ∈ horizonCandidatesOf defaultConfig [] ∧
      (⟨0, 0, 0, 0, 0, 0⟩ : DerivedLine) ∈ wallCandidatesOf defaultConfig []) := by
  have h : defaultConfig.horizonMaxAngle + defaultConfig.wallAngleTolerance ≤ 90 := by
    norm_num [defaultConfig]
  exact ⟨h, (classify_classes_amended defaultConfig [] ⟨0, 0, 0, 0, 0, 0⟩).2.2 h⟩

/-- Counterexample for C6: the classifier does *not* filter degenerate
segments — the zero-length segment (5,5)–(5,5) is classified as a horizon
candidate (angle 0 via `atan2(0,0) = 0`, length 0) and thus participates in
the statistics. -/
theorem classifier_no_degenerate_filter_counterexample :
    derive ⟨5, 5, 5, 5⟩ ∈ horizonCandidatesOf defaultConfig [⟨5, 5, 5, 5⟩] ∧
    (derive ⟨5, 5, 5, 5⟩).length = 0 := by
  have hzero : ((⟨(5 : ℝ) - 5, (5 : ℝ) - 5⟩ : ℂ)) = 0 := by
    apply Complex.ext <;> simp
  have hraw : (derive ⟨5, 5, 5, 5⟩).rawAngle = 0 := by
    show atan2deg ((5 : ℝ) - 5) ((5 : ℝ) - 5) = 0
    rw [atan2deg, hzero, Complex.arg_zero]
    simp
  have hangle : (derive ⟨5, 5, 5, 5⟩).angle = 0 := by
    rw [derive_angle_eq, hraw]
    norm_num [normalizeAngle]
  have hlen : (derive ⟨5, 5, 5, 5⟩).length = 0 := by
    show Real.sqrt (((5 : ℝ) - 5) ^ 2 + ((5 : ℝ) - 5) ^ 2) = 0
    rw [show ((5 : ℝ) - 5) ^ 2 + ((5 : ℝ) - 5) ^ 2 = 0 by ring]
    exact Real.sqrt_zero
  refine ⟨?_, hlen⟩
  rw [horizonCandidatesOf_mem]
  refine ⟨by simp, ?_⟩
  rw [hangle]
  norm_num [defaultConfig]

/-- C6 (amended): the classifier performs no malformed-segment filtering — a
degenerate zero-length segment is assigned angle 0 and length 0, always
becomes a horizon candidate (for positive `maxHorizonAngle`), and the rest of
the list is still processed normally. -/
theorem classifier_degenerate_is_candidate :
    ∀ (x y : ℝ) (rest : List RawLine) (cfg : Config), 0 < cfg.horizonMaxAngle →
      (derive ⟨x, y, x, y⟩).length = 0 ∧ (derive ⟨x, y, x, y⟩).angle = 0 ∧
      horizonCandidatesOf cfg (⟨x, y, x, y⟩ :: rest) =
        derive ⟨x, y, x, y⟩ :: horizonCandidatesOf cfg rest := by
  intro x y rest cfg hpos
  have hzero : ((⟨x - x, y - y⟩ : ℂ)) = 0 := by
    apply Complex.ext <;> simp
  have hraw : (derive ⟨x, y, x, y⟩).rawAngle = 0 := by
    show atan2deg (y - y) (x - x) = 0
    rw [atan2deg, hzero, Complex.arg_zero]
    simp
  have hangle : (derive ⟨x, y, x, y⟩).angle = 0 := by
    rw [derive_angle_eq, hraw]
    norm_num [normalizeAngle]
  have hlen : (derive ⟨x, y, x, y⟩).length = 0 := by
    show Real.sqrt ((x - x) ^ 2 + (y - y) ^ 2) = 0
    rw [show (x - x) ^ 2 + (y - y) ^ 2 = 0 by ring]
    exact Real.sqrt_zero
  refine ⟨hlen, hangle, ?_⟩
  have hcond : decide (|(derive ⟨x, y, x, y⟩).angle| < cfg.horizonMaxAngle) = true := by
    rw [decide_eq_true_eq, hangle]
    simpa using hpos
  simp only [horizonCandidatesOf, List.map_cons]
  rw [List.filter_cons, if_pos hcond]

/-- Witness for the amended C6 at the concrete degenerate segment (5,5)–(5,5)
under the default configuration. -/
theorem classifier_degenerate_is_candidate_witness :
    (0 : ℝ) < defaultConfig.horizonMaxAngle ∧
    ((derive ⟨5, 5, 5, 5⟩).length = 0 ∧ (derive ⟨5, 5, 5, 5⟩).angle = 0 ∧
      horizonCandidatesOf defaultConfig [⟨5, 5, 5, 5⟩] =
        derive ⟨5, 5, 5, 5⟩ :: horizonCandidatesOf defaultConfig []) := by
  have h : (0 : ℝ) < defaultConfig.horizonMaxAngle := by
    norm_num [defaultConfig]
  exact ⟨h, classifier_degenerate_is_candidate 5 5 [] defaultConfig h⟩

end CV
